import Mathlib

/-!
Verification of the entry store and streak engine of a daily journaling
service (SQLite `entries` table in `server/db.js`, upsert route in
`server/routes/entries.js`).

Calendar dates are modelled as integers (day ordinals): the source only
ever compares dates for equality, steps one calendar day backward
(`checkDate.setDate(checkDate.getDate() - 1)`), orders by date, and takes
whole-day differences, all of which correspond to integer arithmetic on
day ordinals.  Timestamps (`created_at` / `updated_at`) are abstract
naturals.  A single user's slice of the `entries` table is a `List Entry`.
-/

/-- A row of the `entries` table for one user.  `text` and `rating` are
nullable columns, `skipped` is the 0/1 flag. -/
structure Entry where
  date : ℤ
  text : Option String
  rating : Option ℤ
  skipped : Bool
  createdAt : ℕ
  updatedAt : ℕ
  deriving DecidableEq

/-- The SQL filter `skipped = 0 AND text IS NOT NULL` used by the streak,
longest-streak, random-entry and total-count queries. -/
def qualifying (e : Entry) : Bool := !e.skipped && e.text.isSome

/-- `db.getEntry`: `SELECT * FROM entries WHERE user_id = ? AND date = ?`
(the first matching row, as returned by `stmt.get`). -/
def getEntry (store : List Entry) (d : ℤ) : Option Entry :=
  store.find? (fun e => e.date == d)

/-- A qualifying entry exists for day `d`. -/
def hasQual (store : List Entry) (d : ℤ) : Bool :=
  (store.filter qualifying).any (fun e => e.date == d)

/-- The loop of `db.getStreak`: starting at day `d`, walk backward one day
at a time while a qualifying entry exists, for at most `fuel` days
(`for (let i = 0; i < 365; i++) { ... streak++; ... } else break`). -/
def streakLoop (qs : List Entry) : ℤ → ℕ → ℕ
  | _, 0 => 0
  | d, n + 1 =>
    if qs.any (fun e => e.date == d) then streakLoop qs (d - 1) n + 1 else 0

/-- `db.getStreak`: filter to qualifying entries, return 0 when there are
none, otherwise walk backward from today for at most 365 days. -/
def getStreak (store : List Entry) (today : ℤ) : ℕ :=
  let qs := store.filter qualifying
  if qs.isEmpty then 0 else streakLoop qs today 365

/-- Specification-side current streak: the number of consecutive calendar
days, starting at today and walking backward one day at a time, each
having a qualifying entry; the walk stops at the first day with no
qualifying entry and has no other bound.  Fuel `length + 1` always
suffices: a run of `length + 1` distinct days would need more qualifying
entries than exist (`specStreak_lt_fuel` below), so the walk always stops
at a missing day, never by running out of fuel. -/
def specStreak (store : List Entry) (today : ℤ) : ℕ :=
  let qs := store.filter qualifying
  streakLoop qs today (qs.length + 1)

/-- The `while (checkDate >= signup)` loop of `db.getMissedDays`, walking
from day `d` downward for `fuel` days and collecting the dates with no
entry row at all. -/
def missedDaysAux (hasEntry : ℤ → Bool) : ℤ → ℕ → List ℤ
  | _, 0 => []
  | d, n + 1 => (if hasEntry d then [] else [d]) ++ missedDaysAux hasEntry (d - 1) n

/-- `db.getMissedDays`: walk from yesterday backward to the signup date,
collect the days with no entry row (regardless of `skipped`/`text`), then
reverse to oldest-first order. -/
def getMissedDays (store : List Entry) (signup today : ℤ) : List ℤ :=
  (missedDaysAux (fun d => store.any (fun e => e.date == d)) (today - 1)
    (today - signup).toNat).reverse

/-- Specification-side missed days: every calendar date from the signup
date (inclusive) through yesterday (inclusive, today excluded) for which
no entry row exists at all, in chronological order oldest-first. -/
def specMissedDays (store : List Entry) (signup today : ℤ) : List ℤ :=
  ((List.range (today - signup).toNat).map (fun k : ℕ => signup + (k : ℤ))).filter
    (fun d => !(store.any (fun e => e.date == d)))

/-- The qualifying entries' dates as ordered by `ORDER BY date ASC`. -/
def sortedQualDates (store : List Entry) : List ℤ :=
  List.insertionSort (· ≤ ·) ((store.filter qualifying).map (fun e => e.date))

/-- The `for` loop of `db.getLongestStreak`: scan the ascending dates,
extend the current run when consecutive dates differ by exactly one day
(`diffDays === 1`), reset it to 1 otherwise, and track the maximum. -/
def longestLoop : List ℤ → ℤ → ℕ → ℕ → ℕ
  | [], _, _, longest => longest
  | d :: rest, prev, current, longest =>
    if d - prev = 1 then longestLoop rest d (current + 1) (max longest (current + 1))
    else longestLoop rest d 1 longest

/-- `db.getLongestStreak`: 0 when no qualifying entries exist, otherwise
the scan starting with `currentStreak = 1` and `longestStreak = 1`. -/
def getLongestStreak (store : List Entry) : ℕ :=
  match sortedQualDates store with
  | [] => 0
  | d :: rest => longestLoop rest d 1 1

/-- `db.getRandomEntry`: `ORDER BY RANDOM() LIMIT 1` over the qualifying
entries; the randomness is modelled by an oracle index `pick`. -/
def getRandomEntry (store : List Entry) (pick : ℕ) : Option Entry :=
  let qs := store.filter qualifying
  qs[pick % qs.length]?

/-- The `/action/random` route: a 404 `NotFoundError` exactly when the
query returns no row, otherwise the selected entry. -/
def randomRoute (store : List Entry) (pick : ℕ) : Except String Entry :=
  match getRandomEntry store pick with
  | none => .error "No entries found"
  | some e => .ok e

/-- `db.createOrUpdateEntry`: `INSERT ... ON CONFLICT(user_id, date) DO
UPDATE SET text, rating, skipped, updated_at` — on conflict the existing
row keeps its `created_at` and has the other attributes replaced. -/
def createOrUpdateEntry (store : List Entry) (d : ℤ) (text : Option String)
    (skipped : Bool) (rating : Option ℤ) (now : ℕ) : List Entry :=
  if store.any (fun e => e.date == d) then
    store.map (fun e =>
      if e.date == d then
        { e with text := text, rating := rating, skipped := skipped, updatedAt := now }
      else e)
  else
    store ++ [⟨d, text, rating, skipped, now, now⟩]

/-- The JSON body of `POST /api/entries`; absent or null fields are
`none`, and `skipped` is the truthiness of the supplied flag. -/
structure PostInput where
  date : Option ℤ
  text : Option String
  rating : Option ℤ
  skipped : Bool
  deriving DecidableEq

/-- Outcome of the upsert route: a 200 save or a 400 `ValidationError`. -/
inductive Resp where
  | saved
  | validationError (msg : String)
  deriving DecidableEq

/-- `MIN_CHARS` in `server/routes/entries.js`. -/
def minChars : ℕ := 100

/-- JavaScript `rating !== undefined && rating !== null &&
![1, 2, 3].includes(rating)`. -/
def ratingInvalid : Option ℤ → Bool
  | none => false
  | some v => !(v == 1 || v == 2 || v == 3)

/-- JavaScript `rating || null` (`0` is falsy and becomes null). -/
def jsOrNull : Option ℤ → Option ℤ
  | none => none
  | some v => if v = 0 then none else some v

/-- `router.post('/')`: the validation chain followed by the single
`createOrUpdateEntry` write.  The returned store is unchanged on every
validation failure. -/
def postEntry (store : List Entry) (today : ℤ) (now : ℕ) (inp : PostInput) :
    List Entry × Resp :=
  match inp.date with
  | none => (store, .validationError "Date is required")
  | some dv =>
    if inp.skipped = false ∧ (inp.text = none ∨ (inp.text.getD "").trim = "") then
      (store, .validationError "Entry text is required")
    else if inp.skipped = false ∧ (inp.text.getD "").trim.length < minChars then
      (store, .validationError "Entry must be at least 100 characters")
    else if ratingInvalid inp.rating = true then
      (store, .validationError "Invalid rating value")
    else if today < dv then
      (store, .validationError "Cannot create entry for future date")
    else
      (createOrUpdateEntry store dv
        (if inp.skipped then none else inp.text.map String.trim)
        inp.skipped
        (if inp.skipped then none else jsOrNull inp.rating) now, .saved)

/-- The conditions under which `router.post('/')` responds with a 400
`ValidationError`: date missing, date in the future, text empty or
shorter than `MIN_CHARS` (after trimming) when not skipped, or a supplied
rating outside {1, 2, 3}. -/
def validationFailure (today : ℤ) (inp : PostInput) : Prop :=
  inp.date = none
    ∨ (∃ dv, inp.date = some dv ∧ today < dv)
    ∨ (inp.skipped = false ∧ (inp.text = none ∨ (inp.text.getD "").trim.length < minChars))
    ∨ (∃ v, inp.rating = some v ∧ v ≠ 1 ∧ v ≠ 2 ∧ v ≠ 3)

/-- The data-model invariant on a stored row: a skipped row has no text
and no rating, a non-skipped row has non-empty text of at least
`MIN_CHARS` characters. -/
def entryInv (e : Entry) : Prop :=
  (e.skipped = true → e.text = none ∧ e.rating = none) ∧
  (e.skipped = false → ∃ s, e.text = some s ∧ s ≠ "" ∧ minChars ≤ s.length)

/-- 366 qualifying entries on the consecutive days 0, 1, …, 365. -/
def yearRunStore : List Entry :=
  (List.range 366).map (fun i : ℕ => ⟨(i : ℤ), some "smile", none, false, 0, 0⟩)

/-! ## Streak lemmas -/

theorem streakLoop_le (qs : List Entry) : ∀ (n : ℕ) (d : ℤ), streakLoop qs d n ≤ n := by
  intro n
  induction n with
  | zero => intro d; simp [streakLoop]
  | succ n ih =>
    intro d
    simp only [streakLoop]
    split
    · have := ih (d - 1); omega
    · omega

theorem streakLoop_prefix (qs : List Entry) :
    ∀ (n : ℕ) (d : ℤ) (k : ℕ), k < streakLoop qs d n →
      qs.any (fun e => e.date == d - (k : ℤ)) = true := by
  intro n
  induction n with
  | zero => intro d k hk; simp [streakLoop] at hk
  | succ n ih =>
    intro d k hk
    simp only [streakLoop] at hk
    by_cases h : qs.any (fun e => e.date == d) = true
    · rw [if_pos h] at hk
      match k with
      | 0 => simpa using h
      | k + 1 =>
        have hk' : k < streakLoop qs (d - 1) n := by omega
        have hih := ih (d - 1) k hk'
        have harith : d - 1 - (k : ℤ) = d - ((k + 1 : ℕ) : ℤ) := by push_cast; ring
        rwa [harith] at hih
    · rw [if_neg h] at hk; omega

theorem streakLoop_stop (qs : List Entry) :
    ∀ (n : ℕ) (d : ℤ), streakLoop qs d n < n →
      qs.any (fun e => e.date == d - (streakLoop qs d n : ℤ)) = false := by
  intro n
  induction n with
  | zero => intro d h; omega
  | succ n ih =>
    intro d h
    by_cases hq : qs.any (fun e => e.date == d) = true
    · have hrec : streakLoop qs d (n + 1) = streakLoop qs (d - 1) n + 1 := by
        simp only [streakLoop]; rw [if_pos hq]
      rw [hrec] at h ⊢
      have hlt : streakLoop qs (d - 1) n < n := by omega
      have hih := ih (d - 1) hlt
      have harith : d - 1 - (streakLoop qs (d - 1) n : ℤ)
          = d - ((streakLoop qs (d - 1) n + 1 : ℕ) : ℤ) := by push_cast; ring
      rwa [harith] at hih
    · have hrec : streakLoop qs d (n + 1) = 0 := by
        simp only [streakLoop]; rw [if_neg hq]
      rw [hrec]
      cases hx : qs.any (fun e => e.date == d - ((0 : ℕ) : ℤ)) with
      | false => rfl
      | true =>
        have : qs.any (fun e => e.date == d) = true := by simpa using hx
        exact absurd this hq

theorem streakLoop_eq_of_stop (qs : List Entry) {n m : ℕ} (d : ℤ)
    (hn : streakLoop qs d n < n) (hm : streakLoop qs d m < m) :
    streakLoop qs d n = streakLoop qs d m := by
  rcases Nat.lt_trichotomy (streakLoop qs d n) (streakLoop qs d m) with h | h | h
  · have h1 := streakLoop_prefix qs m d _ h
    have h2 := streakLoop_stop qs n d hn
    simp [h1] at h2
  · exact h
  · have h1 := streakLoop_prefix qs n d _ h
    have h2 := streakLoop_stop qs m d hm
    simp [h1] at h2

theorem streakLoop_lt_fuel (qs : List Entry) (d : ℤ) :
    streakLoop qs d (qs.length + 1) < qs.length + 1 := by
  by_contra hcon
  have hle := streakLoop_le qs (qs.length + 1) d
  have heq : streakLoop qs d (qs.length + 1) = qs.length + 1 := by omega
  have hmem : ∀ k : ℕ, k < qs.length + 1 → (d - (k : ℤ)) ∈ qs.map Entry.date := by
    intro k hk
    have hany := streakLoop_prefix qs (qs.length + 1) d k (by omega)
    rcases List.any_eq_true.mp hany with ⟨e, he, hbeq⟩
    have hdate : e.date = d - (k : ℤ) := by simpa using hbeq
    exact List.mem_map.mpr ⟨e, he, hdate⟩
  have hnodup : ((List.range (qs.length + 1)).map (fun k : ℕ => d - (k : ℤ))).Nodup := by
    refine List.Nodup.map ?_ (List.nodup_range _)
    intro a b hab
    have hab' : d - (a : ℤ) = d - (b : ℤ) := hab
    omega
  have hsub : ((List.range (qs.length + 1)).map (fun k : ℕ => d - (k : ℤ)))
      ⊆ qs.map Entry.date := by
    intro x hx
    rcases List.mem_map.mp hx with ⟨k, hk, rfl⟩
    exact hmem k (List.mem_range.mp hk)
  have hcard : ((List.range (qs.length + 1)).map (fun k : ℕ => d - (k : ℤ))).length
      ≤ (qs.map Entry.date).length := by
    calc ((List.range (qs.length + 1)).map (fun k : ℕ => d - (k : ℤ))).length
        = ((List.range (qs.length + 1)).map (fun k : ℕ => d - (k : ℤ))).toFinset.card :=
          (List.toFinset_card_of_nodup hnodup).symm
      _ ≤ (qs.map Entry.date).toFinset.card := by
          refine Finset.card_le_card ?_
          intro x hx
          exact List.mem_toFinset.mpr (hsub (List.mem_toFinset.mp hx))
      _ ≤ (qs.map Entry.date).length := (qs.map Entry.date).toFinset_card_le
  simp at hcard

theorem specStreak_prefix (store : List Entry) (today : ℤ) (k : ℕ)
    (hk : k < specStreak store today) : hasQual store (today - (k : ℤ)) = true := by
  simp only [specStreak] at hk
  simpa [hasQual] using
    streakLoop_prefix (store.filter qualifying) ((store.filter qualifying).length + 1) today k hk

theorem specStreak_stop (store : List Entry) (today : ℤ) :
    hasQual store (today - (specStreak store today : ℤ)) = false := by
  have h := streakLoop_lt_fuel (store.filter qualifying) today
  have hs := streakLoop_stop (store.filter qualifying) ((store.filter qualifying).length + 1)
    today h
  simpa [hasQual, specStreak] using hs

theorem specStreak_eq (store : List Entry) (today : ℤ) (n : ℕ)
    (hpre : ∀ k : ℕ, k < n → hasQual store (today - (k : ℤ)) = true)
    (hstop : hasQual store (today - (n : ℤ)) = false) :
    specStreak store today = n := by
  rcases Nat.lt_trichotomy (specStreak store today) n with h | h | h
  · have h1 := hpre _ h
    have h2 := specStreak_stop store today
    simp [h1] at h2
  · exact h
  · have h1 := specStreak_prefix store today n h
    simp [h1] at hstop

theorem getStreak_eq_min (store : List Entry) (today : ℤ) :
    getStreak store today = min (specStreak store today) 365 := by
  by_cases hq : (store.filter qualifying).isEmpty = true
  · have hnil : store.filter qualifying = [] := List.isEmpty_iff.mp hq
    simp [getStreak, specStreak, hnil, streakLoop]
  · simp only [getStreak, specStreak]
    rw [if_neg hq]
    have hle := streakLoop_le (store.filter qualifying) 365 today
    by_cases h3 : streakLoop (store.filter qualifying) today 365 < 365
    · have heq := streakLoop_eq_of_stop (store.filter qualifying) today h3
        (streakLoop_lt_fuel (store.filter qualifying) today)
      omega
    · have h365 : streakLoop (store.filter qualifying) today 365 = 365 := by omega
      have hge : 365 ≤ streakLoop (store.filter qualifying) today
          ((store.filter qualifying).length + 1) := by
        by_contra hlt
        push_neg at hlt
        have hLi := streakLoop_lt_fuel (store.filter qualifying) today
        have hstop := streakLoop_stop (store.filter qualifying)
          ((store.filter qualifying).length + 1) today hLi
        have hpre := streakLoop_prefix (store.filter qualifying) 365 today
          (streakLoop (store.filter qualifying) today ((store.filter qualifying).length + 1))
          (by omega)
        simp [hpre] at hstop
      omega

theorem filter_qualifying_yearRun : yearRunStore.filter qualifying = yearRunStore := by
  apply List.filter_eq_self.mpr
  intro e he
  rcases List.mem_map.mp he with ⟨i, _, rfl⟩
  simp [qualifying]

theorem hasQual_yearRun (d : ℤ) : hasQual yearRunStore d = true ↔ 0 ≤ d ∧ d ≤ 365 := by
  rw [hasQual, filter_qualifying_yearRun]
  simp only [yearRunStore, List.any_eq_true, List.mem_map, List.mem_range, beq_iff_eq]
  constructor
  · rintro ⟨e, ⟨i, hi, rfl⟩, hdate⟩
    have hid : ((i : ℕ) : ℤ) = d := hdate
    omega
  · rintro ⟨h0, h1⟩
    refine ⟨⟨(d.toNat : ℤ), some "smile", none, false, 0, 0⟩, ⟨d.toNat, by omega, rfl⟩, ?_⟩
    show ((d.toNat : ℕ) : ℤ) = d
    omega

/-- **C1** (corrected: the 365-day maximum lookback of the code caps the
count): for every entry set and evaluation date, the current streak is the
number of consecutive calendar days starting at today and walking backward
one day at a time, each having a qualifying entry — the walk stopping at
the first day with no qualifying entry — capped at 365; in particular if
today has no qualifying entry the streak is 0, and qualifying entries on
D, D+1, D+2 with today = D+2 give streak 3. -/
theorem getStreak_consecutive_capped :
    ∀ (store : List Entry) (today : ℤ),
      getStreak store today = min (specStreak store today) 365 ∧
      (hasQual store today = false → getStreak store today = 0) ∧
      (∀ D : ℤ, getStreak [⟨D, some "a", none, false, 0, 0⟩,
        ⟨D + 1, some "b", none, false, 0, 0⟩,
        ⟨D + 2, some "c", none, false, 0, 0⟩] (D + 2) = 3) := by
  intro store today
  refine ⟨getStreak_eq_min store today, ?_, ?_⟩
  · intro h
    have h0 : specStreak store today = 0 := by
      apply specStreak_eq store today 0
      · intro k hk; omega
      · simpa using h
    rw [getStreak_eq_min store today, h0]
    rfl
  · intro D
    have h3 : specStreak [⟨D, some "a", none, false, 0, 0⟩,
        ⟨D + 1, some "b", none, false, 0, 0⟩,
        ⟨D + 2, some "c", none, false, 0, 0⟩] (D + 2) = 3 := by
      apply specStreak_eq
      · intro k hk
        simp [hasQual, qualifying]
        omega
      · cases hx : hasQual [⟨D, some "a", none, false, 0, 0⟩,
            ⟨D + 1, some "b", none, false, 0, 0⟩,
            ⟨D + 2, some "c", none, false, 0, 0⟩] (D + 2 - ((3 : ℕ) : ℤ)) with
        | false => rfl
        | true =>
          exfalso
          simp [hasQual, qualifying] at hx
          omega
    rw [getStreak_eq_min, h3]
    rfl

/-- Witness for C1 at concrete inputs: the empty store has no qualifying
entry today and streak 0, and the concrete 3-day run gives streak 3. -/
theorem getStreak_consecutive_capped_witness :
    hasQual [] 0 = false ∧ getStreak [] 0 = 0 ∧
      getStreak [⟨0, some "a", none, false, 0, 0⟩, ⟨(0 : ℤ) + 1, some "b", none, false, 0, 0⟩,
        ⟨(0 : ℤ) + 2, some "c", none, false, 0, 0⟩] ((0 : ℤ) + 2) = 3 :=
  ⟨rfl, (getStreak_consecutive_capped [] 0).2.1 rfl, (getStreak_consecutive_capped [] 0).2.2 0⟩

/-- C1 counterexample to the claim as stated (no cap): with qualifying
entries on the 366 consecutive days 0..365 and today = 365, `getStreak`
returns 365 while the uncapped backward walk counts 366 days. -/
theorem getStreak_cap_counterexample :
    getStreak yearRunStore 365 ≠ specStreak yearRunStore 365 := by
  have hspec : specStreak yearRunStore 365 = 366 := by
    apply specStreak_eq
    · intro k hk
      rw [hasQual_yearRun]
      omega
    · cases hx : hasQual yearRunStore ((365 : ℤ) - ((366 : ℕ) : ℤ)) with
      | false => rfl
      | true =>
        exfalso
        rw [hasQual_yearRun] at hx
        omega
  have hmin := getStreak_eq_min yearRunStore 365
  rw [hspec] at hmin
  rw [hmin, hspec]
  omega

/-- **C8**: the current-streak computation is a total function whose
backward walk is bounded by the 365-day lookback, so the result always
satisfies 0 ≤ streak ≤ 365. -/
theorem getStreak_bounded :
    ∀ (store : List Entry) (today : ℤ),
      0 ≤ getStreak store today ∧ getStreak store today ≤ 365 := by
  intro store today
  refine ⟨Nat.zero_le _, ?_⟩
  rw [getStreak_eq_min]
  omega

/-! ## Missed-days lemmas -/

theorem missedDaysAux_reverse (h : ℤ → Bool) :
    ∀ (n : ℕ) (d : ℤ), (missedDaysAux h d n).reverse
      = ((List.range n).map (fun k : ℕ => d + 1 - (n : ℤ) + (k : ℤ))).filter
          (fun x => !h x) := by
  intro n
  induction n with
  | zero => intro d; simp [missedDaysAux]
  | succ n ih =>
    intro d
    show ((if h d then [] else [d]) ++ missedDaysAux h (d - 1) n).reverse = _
    rw [List.reverse_append, ih (d - 1)]
    rw [List.range_succ, List.map_append, List.filter_append]
    have hmap : ((List.range n).map (fun k : ℕ => d + 1 - ((n + 1 : ℕ) : ℤ) + (k : ℤ)))
        = (List.range n).map (fun k : ℕ => (d - 1) + 1 - (n : ℤ) + (k : ℤ)) := by
      apply List.map_congr_left
      intro a _
      push_cast
      ring
    rw [hmap]
    congr 1
    have hval : d + 1 - ((n + 1 : ℕ) : ℤ) + (n : ℤ) = d := by push_cast; ring
    by_cases hd : h d = true
    · simp [hd, hval]
    · have hd' : h d = false := by
        cases hx : h d with
        | false => rfl
        | true => exact absurd hx hd
      simp [hd', hval]

theorem getMissedDays_eq_spec (store : List Entry) (signup today : ℤ) :
    getMissedDays store signup today = specMissedDays store signup today := by
  unfold getMissedDays specMissedDays
  rw [missedDaysAux_reverse]
  refine congrArg (List.filter _) ?_
  apply List.map_congr_left
  intro k hk
  have hk' := List.mem_range.mp hk
  omega

/-- **C2**: for every user, the missed-days computation returns exactly the
calendar dates from the signup date (inclusive) through yesterday
(inclusive, today excluded) with no entry row at all, oldest-first; with
signup day 0, today day 4 and entries on days 0 and 2 the result is the
days 1 and 3 (i.e. 2024-01-02 and 2024-01-04 in the spec's example). -/
theorem getMissedDays_correct :
    (∀ (store : List Entry) (signup today : ℤ),
      getMissedDays store signup today = specMissedDays store signup today) ∧
      getMissedDays [⟨0, some "x", none, false, 0, 0⟩, ⟨2, some "y", none, false, 0, 0⟩] 0 4
        = [1, 3] := by
  constructor
  · exact getMissedDays_eq_spec
  · decide

/-! ## Upsert lemmas -/

theorem find?_date_update (d : ℤ) (t : Option String) (s : Bool) (r : Option ℤ) (now : ℕ) :
    ∀ store : List Entry, store.any (fun e => e.date == d) = true →
      ∃ c : ℕ, (store.map (fun e => if e.date == d
          then { e with text := t, rating := r, skipped := s, updatedAt := now }
          else e)).find? (fun e => e.date == d) = some ⟨d, t, r, s, c, now⟩ := by
  intro store
  induction store with
  | nil => intro h; simp at h
  | cons e rest ih =>
    intro h
    by_cases he : (e.date == d) = true
    · obtain ⟨ed, et, er, es, ec, eu⟩ := e
      have hed : ed = d := by simpa using he
      subst hed
      refine ⟨ec, ?_⟩
      rw [List.map_cons, if_pos he]
      exact List.find?_cons_of_pos _ he
    · have he' : (e.date == d) = false := by
        cases hx : (e.date == d) with
        | false => rfl
        | true => exact absurd hx he
      have hrest : rest.any (fun e => e.date == d) = true := by
        simp [List.any_cons, he'] at h
        simpa using h
      obtain ⟨c, hc⟩ := ih hrest
      refine ⟨c, ?_⟩
      rw [List.map_cons, if_neg he]
      exact (@List.find?_cons_of_neg Entry (fun e => e.date == d) e _ he).trans hc

theorem getEntry_createOrUpdateEntry (store : List Entry) (d : ℤ) (t : Option String)
    (s : Bool) (r : Option ℤ) (now : ℕ) :
    ∃ c : ℕ, getEntry (createOrUpdateEntry store d t s r now) d
      = some ⟨d, t, r, s, c, now⟩ := by
  unfold createOrUpdateEntry getEntry
  by_cases hany : store.any (fun e => e.date == d) = true
  · rw [if_pos hany]
    exact find?_date_update d t s r now store hany
  · rw [if_neg hany]
    refine ⟨now, ?_⟩
    rw [List.find?_append]
    have hnone : store.find? (fun e => e.date == d) = none := by
      rw [List.find?_eq_none]
      intro x hx hpx
      exact hany (List.any_eq_true.mpr ⟨x, hx, hpx⟩)
    rw [hnone]
    have hfind : List.find? (fun e => e.date == d) [(⟨d, t, r, s, now, now⟩ : Entry)]
        = some ⟨d, t, r, s, now, now⟩ :=
      List.find?_cons_of_pos _ (by simp)
    rw [hfind]
    rfl

theorem filter_date_length_one (d : ℤ) :
    ∀ store : List Entry, (store.map Entry.date).Nodup →
      store.any (fun e => e.date == d) = true →
      (store.filter (fun e => e.date == d)).length = 1 := by
  intro store
  induction store with
  | nil => intro _ h; simp at h
  | cons e rest ih =>
    intro hnd h
    rw [List.map_cons] at hnd
    have hnd' := List.nodup_cons.mp hnd
    by_cases he : (e.date == d) = true
    · have hed : e.date = d := by simpa using he
      rw [@List.filter_cons_of_pos Entry (fun x => x.date == d) e rest he]
      have htail : rest.filter (fun e => e.date == d) = [] := by
        rw [List.filter_eq_nil_iff]
        intro x hx hpx
        have hxd : x.date = d := by simpa using hpx
        apply hnd'.1
        have hmem : x.date ∈ rest.map Entry.date := List.mem_map.mpr ⟨x, hx, rfl⟩
        rw [hed, ← hxd]
        exact hmem
      rw [htail]
      rfl
    · have he' : (e.date == d) = false := by
        cases hx : (e.date == d) with
        | false => rfl
        | true => exact absurd hx he
      rw [@List.filter_cons_of_neg Entry (fun x => x.date == d) e rest he]
      apply ih hnd'.2
      simp [List.any_cons, he'] at h
      simpa using h

/-- **C6**: upserting a (user, date) key leaves exactly one row for that
key, reflecting the latest write's text, rating, skipped flag and updated
timestamp; the unique-key invariant on dates is preserved, so no sequence
of upserts ever produces a second row for the same key. -/
theorem upsert_single_row :
    ∀ (store : List Entry) (d : ℤ) (t : Option String) (s : Bool) (r : Option ℤ) (now : ℕ),
      (store.map Entry.date).Nodup →
      ((createOrUpdateEntry store d t s r now).map Entry.date).Nodup ∧
      ((createOrUpdateEntry store d t s r now).filter (fun e => e.date == d)).length = 1 ∧
      (∃ c : ℕ, getEntry (createOrUpdateEntry store d t s r now) d
        = some ⟨d, t, r, s, c, now⟩) := by
  intro store d t s r now hnd
  refine ⟨?_, ?_, getEntry_createOrUpdateEntry store d t s r now⟩
  · unfold createOrUpdateEntry
    by_cases hany : store.any (fun e => e.date == d) = true
    · rw [if_pos hany, List.map_map]
      have hcomp : (Entry.date ∘ fun e : Entry => if e.date == d
          then { e with text := t, rating := r, skipped := s, updatedAt := now } else e)
          = Entry.date := by
        funext e
        by_cases hx : (e.date == d) = true
        · simp [Function.comp, hx]
        · simp [Function.comp, hx]
      rw [hcomp]
      exact hnd
    · rw [if_neg hany, List.map_append, List.nodup_append]
      refine ⟨hnd, by simp, ?_⟩
      intro a ha hb
      simp at hb
      subst hb
      rcases List.mem_map.mp ha with ⟨x, hx, hxd⟩
      exact hany (List.any_eq_true.mpr ⟨x, hx, by simp [hxd]⟩)
  · unfold createOrUpdateEntry
    by_cases hany : store.any (fun e => e.date == d) = true
    · rw [if_pos hany, List.filter_map, List.length_map]
      have hcong : List.filter ((fun e : Entry => e.date == d) ∘ (fun e => if e.date == d
          then { e with text := t, rating := r, skipped := s, updatedAt := now } else e)) store
          = List.filter (fun e => e.date == d) store := by
        apply List.filter_congr
        intro x _
        by_cases hx : (x.date == d) = true
        · simp [Function.comp, hx]
        · simp [Function.comp, hx]
      rw [hcong]
      exact filter_date_length_one d store hnd hany
    · rw [if_neg hany, List.filter_append]
      have h1 : store.filter (fun e => e.date == d) = [] := by
        rw [List.filter_eq_nil_iff]
        intro x hx hpx
        exact hany (List.any_eq_true.mpr ⟨x, hx, hpx⟩)
      rw [h1]
      simp

/-- Witness for C6: upserting into the empty store (which trivially has
pairwise-distinct dates) produces the single expected row. -/
theorem upsert_single_row_witness :
    (([] : List Entry).map Entry.date).Nodup ∧
      ((createOrUpdateEntry [] 0 (some "s") false none 5).map Entry.date).Nodup ∧
      ((createOrUpdateEntry [] 0 (some "s") false none 5).filter
        (fun e => e.date == 0)).length = 1 ∧
      (∃ c : ℕ, getEntry (createOrUpdateEntry [] 0 (some "s") false none 5) 0
        = some ⟨0, some "s", none, false, c, 5⟩) :=
  ⟨by simp, upsert_single_row [] 0 (some "s") false none 5 (by simp)⟩

/-- **C10**: when the upsert route answers with a `ValidationError`, no
write has been performed — the returned entry store is exactly the input
store, because every validation check precedes the single write. -/
theorem postEntry_error_no_write :
    ∀ (store : List Entry) (today : ℤ) (now : ℕ) (inp : PostInput) (msg : String),
      (postEntry store today now inp).2 = Resp.validationError msg →
      (postEntry store today now inp).1 = store := by
  intro store today now inp msg h
  cases hdate : inp.date with
  | none => simp [postEntry, hdate]
  | some dv =>
    simp only [postEntry, hdate] at h ⊢
    split_ifs at h ⊢ <;> simp_all

/-- Witness for C10: the missing-date failure leaves the store unchanged. -/
theorem postEntry_error_no_write_witness :
    (postEntry [] 0 0 ⟨none, none, none, false⟩).2 = Resp.validationError "Date is required" ∧
      (postEntry [] 0 0 ⟨none, none, none, false⟩).1 = [] :=
  ⟨rfl, postEntry_error_no_write [] 0 0 ⟨none, none, none, false⟩ "Date is required" rfl⟩

/-- **C7**: random entry selection fails with `NotFoundError` exactly when
the user has no qualifying entry, never returning a default value; with at
least one qualifying entry it returns one of the user's qualifying
entries, whichever index the randomness oracle picks. -/
theorem randomRoute_correct :
    ∀ (store : List Entry) (pick : ℕ),
      (store.filter qualifying = [] → randomRoute store pick = Except.error "No entries found") ∧
      (store.filter qualifying ≠ [] →
        ∃ e, randomRoute store pick = Except.ok e ∧ e ∈ store ∧ qualifying e = true) := by
  intro store pick
  constructor
  · intro h
    simp [randomRoute, getRandomEntry, h]
  · intro h
    have hlen : 0 < (store.filter qualifying).length := List.length_pos.mpr h
    have hidx : pick % (store.filter qualifying).length < (store.filter qualifying).length :=
      Nat.mod_lt _ hlen
    refine ⟨(store.filter qualifying)[pick % (store.filter qualifying).length], ?_, ?_, ?_⟩
    · simp [randomRoute, getRandomEntry, List.getElem?_eq_getElem hidx]
    · exact (List.mem_filter.mp (List.getElem_mem hidx)).1
    · exact (List.mem_filter.mp (List.getElem_mem hidx)).2

/-- Witness for C7: the empty store yields the not-found error, and a
one-entry store yields that qualifying entry. -/
theorem randomRoute_correct_witness :
    (([] : List Entry).filter qualifying = []
        ∧ randomRoute [] 0 = Except.error "No entries found") ∧
      ([⟨0, some "s", none, false, 0, 0⟩].filter qualifying ≠ [] ∧
        ∃ e, randomRoute [⟨0, some "s", none, false, 0, 0⟩] 0 = Except.ok e ∧
          e ∈ [(⟨0, some "s", none, false, 0, 0⟩ : Entry)] ∧ qualifying e = true) :=
  ⟨⟨rfl, (randomRoute_correct [] 0).1 rfl⟩,
    ⟨by decide, (randomRoute_correct [⟨0, some "s", none, false, 0, 0⟩] 0).2 (by decide)⟩⟩

/-- **C5** (corrected: the route validates a supplied rating even when the
skip flag is set, so a rating outside {1, 2, 3} passed along with the skip
flag is rejected with `ValidationError`; a rating in {1, 2, 3} or absent is
discarded): for every date ≤ today, an upsert with skipped=true, no text
and an absent or valid rating succeeds and stores a row with text absent
and rating absent. -/
theorem skip_upsert_discards :
    ∀ (store : List Entry) (today : ℤ) (now : ℕ) (d : ℤ) (r : Option ℤ),
      d ≤ today → (r = none ∨ r = some 1 ∨ r = some 2 ∨ r = some 3) →
      (postEntry store today now ⟨some d, none, r, true⟩).2 = Resp.saved ∧
      ∃ c : ℕ, getEntry (postEntry store today now ⟨some d, none, r, true⟩).1 d
        = some ⟨d, none, none, true, c, now⟩ := by
  intro store today now d r hd hr
  have hrv : ratingInvalid r = false := by
    rcases hr with rfl | rfl | rfl | rfl <;> rfl
  have hpost : postEntry store today now ⟨some d, none, r, true⟩
      = (createOrUpdateEntry store d none true none now, Resp.saved) := by
    simp only [postEntry]
    rw [if_neg (by simp), if_neg (by simp), if_neg (by simp [hrv]), if_neg (by omega)]
    simp
  rw [hpost]
  exact ⟨rfl, getEntry_createOrUpdateEntry store d none true none now⟩

/-- C5 counterexample to "regardless of any rating passed": skipped=true
with no text, a valid (non-future) date, and rating 7 is rejected with a
`ValidationError` instead of succeeding. -/
theorem skip_upsert_invalid_rating_counterexample :
    (postEntry [] 0 0 ⟨some 0, none, some 7, true⟩).2
      = Resp.validationError "Invalid rating value" := by
  rfl

/-- Witness for C5: skipping day 0 with rating 2 on day 0 succeeds and
stores a row with no text and no rating. -/
theorem skip_upsert_discards_witness :
    (0 : ℤ) ≤ 0 ∧
      ((some 2 : Option ℤ) = none ∨ (some 2 : Option ℤ) = some 1
        ∨ (some 2 : Option ℤ) = some 2 ∨ (some 2 : Option ℤ) = some 3) ∧
      ((postEntry [] 0 0 ⟨some 0, none, some 2, true⟩).2 = Resp.saved ∧
        ∃ c : ℕ, getEntry (postEntry [] 0 0 ⟨some 0, none, some 2, true⟩).1 0
          = some ⟨0, none, none, true, c, 0⟩) :=
  ⟨le_refl 0, Or.inr (Or.inr (Or.inl rfl)),
    skip_upsert_discards [] 0 0 0 (some 2) (le_refl 0) (Or.inr (Or.inr (Or.inl rfl)))⟩

/-- **C4**: the upsert route fails with `ValidationError` exactly when the
date is missing, the date is in the future, the text is empty or shorter
than `MIN_CHARS` when not skipped, or a supplied rating is outside
{1, 2, 3}; for any other input — any valid past date included, regardless
of older missed days — it succeeds and performs the single
`createOrUpdateEntry` write. -/
theorem postEntry_validation_exact :
    ∀ (store : List Entry) (today : ℤ) (now : ℕ) (inp : PostInput),
      ((∃ msg, (postEntry store today now inp).2 = Resp.validationError msg) ↔
        validationFailure today inp) ∧
      (¬ validationFailure today inp →
        ∀ dv, inp.date = some dv →
          postEntry store today now inp
            = (createOrUpdateEntry store dv
                (if inp.skipped then none else inp.text.map String.trim) inp.skipped
                (if inp.skipped then none else jsOrNull inp.rating) now, Resp.saved)) := by
  intro store today now inp
  cases hdate : inp.date with
  | none =>
    refine ⟨⟨fun _ => Or.inl hdate, fun _ => ⟨"Date is required", by simp [postEntry, hdate]⟩⟩,
      fun hnf => absurd (Or.inl hdate) hnf⟩
  | some dv =>
    simp only [postEntry, hdate]
    by_cases h1 : inp.skipped = false ∧ (inp.text = none ∨ (inp.text.getD "").trim = "")
    · rw [if_pos h1]
      have hfail : validationFailure today inp := by
        refine Or.inr (Or.inr (Or.inl ⟨h1.1, ?_⟩))
        rcases h1.2 with ht | ht
        · exact Or.inl ht
        · refine Or.inr ?_
          rw [ht]
          simp [minChars]
      exact ⟨⟨fun _ => hfail, fun _ => ⟨"Entry text is required", rfl⟩⟩,
        fun hnf => absurd hfail hnf⟩
    · rw [if_neg h1]
      by_cases h2 : inp.skipped = false ∧ (inp.text.getD "").trim.length < minChars
      · rw [if_pos h2]
        have hfail : validationFailure today inp :=
          Or.inr (Or.inr (Or.inl ⟨h2.1, Or.inr h2.2⟩))
        exact ⟨⟨fun _ => hfail, fun _ => ⟨"Entry must be at least 100 characters", rfl⟩⟩,
          fun hnf => absurd hfail hnf⟩
      · rw [if_neg h2]
        by_cases h3 : ratingInvalid inp.rating = true
        · rw [if_pos h3]
          have hfail : validationFailure today inp := by
            cases hr : inp.rating with
            | none => rw [hr] at h3; simp [ratingInvalid] at h3
            | some v =>
              rw [hr] at h3
              simp [ratingInvalid] at h3
              exact Or.inr (Or.inr (Or.inr ⟨v, hr, h3.1.1, h3.1.2, h3.2⟩))
          exact ⟨⟨fun _ => hfail, fun _ => ⟨"Invalid rating value", rfl⟩⟩,
            fun hnf => absurd hfail hnf⟩
        · rw [if_neg h3]
          by_cases h4 : today < dv
          · rw [if_pos h4]
            have hfail : validationFailure today inp := Or.inr (Or.inl ⟨dv, hdate, h4⟩)
            exact ⟨⟨fun _ => hfail, fun _ => ⟨"Cannot create entry for future date", rfl⟩⟩,
              fun hnf => absurd hfail hnf⟩
          · rw [if_neg h4]
            constructor
            · constructor
              · rintro ⟨msg, hmsg⟩
                simp at hmsg
              · intro hf
                exfalso
                rcases hf with hf | ⟨dv2, hdv2, hlt⟩ | ⟨hs, htext⟩ | ⟨v, hv, hv1, hv2, hv3⟩
                · rw [hdate] at hf
                  exact Option.noConfusion hf
                · rw [hdate] at hdv2
                  injection hdv2 with hdd
                  subst hdd
                  exact h4 hlt
                · rcases htext with ht | ht
                  · exact h1 ⟨hs, Or.inl ht⟩
                  · exact h2 ⟨hs, ht⟩
                · apply h3
                  rw [hv]
                  simp [ratingInvalid, hv1, hv2, hv3]
            · intro _ dv2 hdv2
              injection hdv2 with hdd
              subst hdd
              rfl

/-- Witness for C4: skipping day 0 on day 0 violates none of the
validation conditions and performs the single write. -/
theorem postEntry_validation_exact_witness :
    ¬ validationFailure 0 ⟨some 0, none, none, true⟩ ∧
      postEntry [] 0 0 ⟨some 0, none, none, true⟩
        = (createOrUpdateEntry [] 0 none true none 0, Resp.saved) := by
  have hnf : ¬ validationFailure 0 ⟨some 0, none, none, true⟩ := by
    rintro (h | ⟨dv, hdv, hlt⟩ | ⟨hs, -⟩ | ⟨v, hv, -⟩)
    · exact Option.noConfusion h
    · simp at hdv
      omega
    · exact Bool.noConfusion hs
    · exact Option.noConfusion hv
  exact ⟨hnf, (postEntry_validation_exact [] 0 0 ⟨some 0, none, none, true⟩).2 hnf 0 rfl⟩

/-- **C9**: every store whose rows satisfy the entry invariant still
satisfies it after any successful upsert: a skipped row stores no text and
no rating (anything supplied alongside the skip flag is discarded), and a
non-skipped row stores non-empty text of at least `MIN_CHARS` characters. -/
theorem postEntry_preserves_entryInv :
    ∀ (store : List Entry) (today : ℤ) (now : ℕ) (inp : PostInput) (store2 : List Entry),
      (∀ e ∈ store, entryInv e) →
      postEntry store today now inp = (store2, Resp.saved) →
      ∀ e ∈ store2, entryInv e := by
  intro store today now inp store2 hinv hpost
  cases hdate : inp.date with
  | none => simp [postEntry, hdate, Prod.ext_iff] at hpost
  | some dv =>
    simp only [postEntry, hdate] at hpost
    by_cases h1 : inp.skipped = false ∧ (inp.text = none ∨ (inp.text.getD "").trim = "")
    · rw [if_pos h1] at hpost
      simp [Prod.ext_iff] at hpost
    · rw [if_neg h1] at hpost
      by_cases h2 : inp.skipped = false ∧ (inp.text.getD "").trim.length < minChars
      · rw [if_pos h2] at hpost
        simp [Prod.ext_iff] at hpost
      · rw [if_neg h2] at hpost
        by_cases h3 : ratingInvalid inp.rating = true
        · rw [if_pos h3] at hpost
          simp [Prod.ext_iff] at hpost
        · rw [if_neg h3] at hpost
          by_cases h4 : today < dv
          · rw [if_pos h4] at hpost
            simp [Prod.ext_iff] at hpost
          · rw [if_neg h4] at hpost
            rw [Prod.mk.injEq] at hpost
            obtain ⟨hstore, -⟩ := hpost
            subst hstore
            have hfieldskip : inp.skipped = true →
                (if inp.skipped then none else inp.text.map String.trim) = (none : Option String) ∧
                (if inp.skipped then none else jsOrNull inp.rating) = (none : Option ℤ) := by
              intro hs
              simp [hs]
            have hfieldtext : inp.skipped = false →
                ∃ s, (if inp.skipped then none else inp.text.map String.trim) = some s ∧
                  s ≠ "" ∧ minChars ≤ s.length := by
              intro hs
              rcases hx : inp.text with _ | s
              · exact absurd ⟨hs, Or.inl hx⟩ h1
              · refine ⟨s.trim, by simp [hs, hx], ?_, ?_⟩
                · intro h0
                  apply h2
                  refine ⟨hs, ?_⟩
                  rw [hx]
                  simp [h0, minChars]
                · have hlen : ¬((inp.text.getD "").trim.length < minChars) := fun hl => h2 ⟨hs, hl⟩
                  rw [hx] at hlen
                  simp at hlen
                  exact hlen
            have hrow : ∀ x : Entry,
                x.text = (if inp.skipped then none else inp.text.map String.trim) →
                x.rating = (if inp.skipped then none else jsOrNull inp.rating) →
                x.skipped = inp.skipped → entryInv x := by
              intro x hxt hxr hxs
              constructor
              · intro hsk
                have hs : inp.skipped = true := by rw [← hxs]; exact hsk
                obtain ⟨hT, hR⟩ := hfieldskip hs
                exact ⟨by rw [hxt, hT], by rw [hxr, hR]⟩
              · intro hsk
                have hs : inp.skipped = false := by rw [← hxs]; exact hsk
                obtain ⟨s, hT, hne, hlen⟩ := hfieldtext hs
                exact ⟨s, by rw [hxt, hT], hne, hlen⟩
            intro e he
            unfold createOrUpdateEntry at he
            by_cases hany : store.any (fun x => x.date == dv) = true
            · rw [if_pos hany] at he
              rcases List.mem_map.mp he with ⟨e0, he0, rfl⟩
              by_cases hd : (e0.date == dv) = true
              · rw [if_pos hd]
                exact hrow _ (by simp) (by simp) (by simp)
              · rw [if_neg hd]
                exact hinv e0 he0
            · rw [if_neg hany] at he
              rcases List.mem_append.mp he with he0 | he0
              · exact hinv e he0
              · rw [List.mem_singleton] at he0
                subst he0
                exact hrow _ rfl rfl rfl

/-- Witness for C9: starting from the empty store (trivially invariant), a
skip upsert yields a store whose single row satisfies the invariant. -/
theorem postEntry_preserves_entryInv_witness :
    (∀ e ∈ ([] : List Entry), entryInv e) ∧
      postEntry [] 0 0 ⟨some 0, none, none, true⟩ = ([⟨0, none, none, true, 0, 0⟩], Resp.saved) ∧
      ∀ e ∈ [(⟨0, none, none, true, 0, 0⟩ : Entry)], entryInv e := by
  have h1 : ∀ e ∈ ([] : List Entry), entryInv e := fun e he => absurd he (List.not_mem_nil e)
  have h2 : postEntry [] 0 0 ⟨some 0, none, none, true⟩
      = ([⟨0, none, none, true, 0, 0⟩], Resp.saved) := rfl
  exact ⟨h1, h2, postEntry_preserves_entryInv [] 0 0 ⟨some 0, none, none, true⟩ _ h1 h2⟩

/-! ## Longest-streak lemmas -/

theorem le_longestLoop : ∀ (rest : List ℤ) (prev : ℤ) (c L : ℕ), L ≤ longestLoop rest prev c L := by
  intro rest
  induction rest with
  | nil => intro prev c L; simp [longestLoop]
  | cons d t ih =>
    intro prev c L
    simp only [longestLoop]
    by_cases hd : d - prev = 1
    · rw [if_pos hd]
      have h1 := ih d (c + 1) (max L (c + 1))
      have h2 : L ≤ max L (c + 1) := le_max_left _ _
      omega
    · rw [if_neg hd]
      exact ih d 1 L

theorem longestLoop_spec :
    ∀ (rest P : List ℤ) (prev : ℤ) (c L : ℕ),
      List.Sorted (· < ·) (P ++ prev :: rest) →
      1 ≤ c → c ≤ L →
      (∀ k : ℕ, k < c → (prev - (k : ℤ)) ∈ P ++ prev :: rest) →
      (prev - (c : ℤ)) ∉ P ++ prev :: rest →
      (∃ a : ℤ, ∀ k : ℕ, k < L → (a + (k : ℤ)) ∈ P ++ prev :: rest) →
      (∀ (a : ℤ) (n : ℕ), (∀ k : ℕ, k < n → (a + (k : ℤ)) ∈ P ++ [prev]) → n ≤ L) →
      (∃ a : ℤ, ∀ k : ℕ, k < longestLoop rest prev c L → (a + (k : ℤ)) ∈ P ++ prev :: rest) ∧
      (∀ (a : ℤ) (n : ℕ), (∀ k : ℕ, k < n → (a + (k : ℤ)) ∈ P ++ prev :: rest) →
        n ≤ longestLoop rest prev c L) := by
  intro rest
  induction rest with
  | nil =>
    intro P prev c L hsort hc1 hcL hrun hstop hwit hmax
    exact ⟨hwit, fun a n hn => hmax a n hn⟩
  | cons d t ih =>
    intro P prev c L hsort hc1 hcL hrun hstop hwit hmax
    have hEQ : (P ++ [prev]) ++ d :: t = P ++ prev :: d :: t := by
      rw [List.append_assoc, List.singleton_append]
    have hsort' : List.Sorted (· < ·) ((P ++ [prev]) ++ d :: t) := by rw [hEQ]; exact hsort
    have hpairs := (List.pairwise_append).mp hsort
    have hprevd : prev < d :=
      (List.pairwise_cons.mp hpairs.2.1).1 d (List.mem_cons_self d t)
    have hPlt : ∀ x ∈ P, x < prev :=
      fun x hx => hpairs.2.2 x hx prev (List.mem_cons_self prev _)
    have hPltd : ∀ x ∈ P, x < d := fun x hx => hpairs.2.2 x hx d (by simp)
    have htgt : ∀ x ∈ t, d < x :=
      (List.pairwise_cons.mp (List.pairwise_cons.mp hpairs.2.1).2).1
    have hled : ∀ x ∈ (P ++ [prev]) ++ [d], x ≤ d := by
      intro x hx
      rcases List.mem_append.mp hx with hx | hx
      · rcases List.mem_append.mp hx with hx | hx
        · exact le_of_lt (hPltd x hx)
        · rw [List.mem_singleton] at hx; subst hx; exact le_of_lt hprevd
      · rw [List.mem_singleton] at hx; subst hx; exact le_rfl
    have hsub2 : ∀ x : ℤ, x ∈ (P ++ [prev]) ++ [d] → x ∈ P ++ prev :: d :: t := by
      intro x hx
      rcases List.mem_append.mp hx with hx | hx
      · rcases List.mem_append.mp hx with hx | hx
        · exact List.mem_append.mpr (Or.inl hx)
        · rw [List.mem_singleton] at hx; subst hx; simp
      · rw [List.mem_singleton] at hx; subst hx; simp
    by_cases hd : d - prev = 1
    · rw [show longestLoop (d :: t) prev c L = longestLoop t d (c + 1) (max L (c + 1)) from by
        simp only [longestLoop]; rw [if_pos hd]]
      have hrun' : ∀ k : ℕ, k < c + 1 → (d - (k : ℤ)) ∈ (P ++ [prev]) ++ d :: t := by
        intro k hk
        rw [hEQ]
        match k with
        | 0 => simp
        | j + 1 =>
          have harith : d - ((j + 1 : ℕ) : ℤ) = prev - (j : ℤ) := by push_cast; omega
          rw [harith]
          exact hrun j (by omega)
      have hstop' : (d - ((c + 1 : ℕ) : ℤ)) ∉ (P ++ [prev]) ++ d :: t := by
        rw [hEQ]
        have harith : d - ((c + 1 : ℕ) : ℤ) = prev - (c : ℤ) := by push_cast; omega
        rw [harith]
        exact hstop
      have hwit' : ∃ a : ℤ, ∀ k : ℕ, k < max L (c + 1) →
          (a + (k : ℤ)) ∈ (P ++ [prev]) ++ d :: t := by
        rcases Nat.lt_or_ge L (c + 1) with hm | hm
        · have hmx : max L (c + 1) = c + 1 := by omega
          rw [hmx]
          refine ⟨d - (c : ℤ), fun k hk => ?_⟩
          have harith : d - (c : ℤ) + (k : ℤ) = d - ((c - k : ℕ) : ℤ) := by omega
          rw [harith]
          exact hrun' (c - k) (by omega)
        · have hmx : max L (c + 1) = L := by omega
          rw [hmx]
          obtain ⟨a, ha⟩ := hwit
          exact ⟨a, fun k hk => by rw [hEQ]; exact ha k hk⟩
      have hmax' : ∀ (a : ℤ) (n : ℕ),
          (∀ k : ℕ, k < n → (a + (k : ℤ)) ∈ (P ++ [prev]) ++ [d]) → n ≤ max L (c + 1) := by
        intro a n hrunan
        by_cases hdin : ∃ k : ℕ, k < n ∧ a + (k : ℤ) = d
        · obtain ⟨k0, hk0, hak0⟩ := hdin
          have hub : ∀ k : ℕ, k < n → a + (k : ℤ) ≤ d := fun k hk => hled _ (hrunan k hk)
          have hk0n : k0 = n - 1 := by
            by_contra hne
            have hk01 : k0 + 1 < n := by omega
            have hub1 := hub (k0 + 1) hk01
            push_cast at hub1
            omega
          rw [hk0n] at hak0
          by_contra hgt
          push_neg at hgt
          have hn2 : c + 2 ≤ n := by omega
          have hmem := hrunan (n - c - 2) (by omega)
          have harith : a + ((n - c - 2 : ℕ) : ℤ) = prev - (c : ℤ) := by omega
          rw [harith] at hmem
          exact hstop (hsub2 _ hmem)
        · push_neg at hdin
          have hsubrun : ∀ k : ℕ, k < n → (a + (k : ℤ)) ∈ P ++ [prev] := by
            intro k hk
            rcases List.mem_append.mp (hrunan k hk) with hx | hx
            · exact hx
            · rw [List.mem_singleton] at hx
              exact absurd hx (hdin k hk)
          have hnL := hmax a n hsubrun
          omega
      have hres := ih (P ++ [prev]) d (c + 1) (max L (c + 1)) hsort'
        (by omega) (le_max_right _ _) hrun' hstop' hwit' hmax'
      rw [hEQ] at hres
      exact hres
    · rw [show longestLoop (d :: t) prev c L = longestLoop t d 1 L from by
        simp only [longestLoop]; rw [if_neg hd]]
      have hd2 : prev + 2 ≤ d := by omega
      have hrun' : ∀ k : ℕ, k < 1 → (d - (k : ℤ)) ∈ (P ++ [prev]) ++ d :: t := by
        intro k hk
        have hk0 : k = 0 := by omega
        subst hk0
        rw [hEQ]
        simp
      have hstop' : (d - ((1 : ℕ) : ℤ)) ∉ (P ++ [prev]) ++ d :: t := by
        rw [hEQ]
        intro hmem
        rcases List.mem_append.mp hmem with hx | hx
        · have := hPlt _ hx
          omega
        · rcases List.mem_cons.mp hx with hx | hx
          · omega
          · rcases List.mem_cons.mp hx with hx | hx
            · omega
            · have := htgt _ hx
              omega
      have hwit' : ∃ a : ℤ, ∀ k : ℕ, k < L → (a + (k : ℤ)) ∈ (P ++ [prev]) ++ d :: t := by
        obtain ⟨a, ha⟩ := hwit
        exact ⟨a, fun k hk => by rw [hEQ]; exact ha k hk⟩
      have hmax' : ∀ (a : ℤ) (n : ℕ),
          (∀ k : ℕ, k < n → (a + (k : ℤ)) ∈ (P ++ [prev]) ++ [d]) → n ≤ L := by
        intro a n hrunan
        by_cases hdin : ∃ k : ℕ, k < n ∧ a + (k : ℤ) = d
        · obtain ⟨k0, hk0, hak0⟩ := hdin
          have hub : ∀ k : ℕ, k < n → a + (k : ℤ) ≤ d := fun k hk => hled _ (hrunan k hk)
          have hk0n : k0 = n - 1 := by
            by_contra hne
            have hk01 : k0 + 1 < n := by omega
            have hub1 := hub (k0 + 1) hk01
            push_cast at hub1
            omega
          rw [hk0n] at hak0
          by_contra hgt
          push_neg at hgt
          have hn2 : 2 ≤ n := by omega
          have hmem := hrunan (n - 2) (by omega)
          have harith : a + ((n - 2 : ℕ) : ℤ) = d - ((1 : ℕ) : ℤ) := by omega
          rw [harith] at hmem
          exact hstop' (by rw [hEQ]; exact hsub2 _ hmem)
        · push_neg at hdin
          have hsubrun : ∀ k : ℕ, k < n → (a + (k : ℤ)) ∈ P ++ [prev] := by
            intro k hk
            rcases List.mem_append.mp (hrunan k hk) with hx | hx
            · exact hx
            · rw [List.mem_singleton] at hx
              exact absurd hx (hdin k hk)
          exact hmax a n hsubrun
      have hres := ih (P ++ [prev]) d 1 L hsort'
        (le_refl 1) (by omega) hrun' hstop' hwit' hmax'
      rw [hEQ] at hres
      exact hres

/-- **C3**: over the qualifying entries ordered by date ascending (with
pairwise-distinct dates, as the UNIQUE(user_id, date) constraint
guarantees), the longest streak is the maximal number of consecutive
calendar days all carrying a qualifying entry — a gap resets the running
count to 1, so it is 0 exactly when no qualifying entry exists, there is a
run of consecutive days of the returned length, no longer run exists, and
qualifying entries on D and D+2 alone yield longest streak 1, not 2. -/
theorem getLongestStreak_correct :
    ∀ store : List Entry,
      ((store.filter qualifying).map (fun e => e.date)).Nodup →
      (getLongestStreak store = 0 ↔ (store.filter qualifying).map (fun e => e.date) = []) ∧
      (∃ a : ℤ, ∀ k : ℕ, k < getLongestStreak store →
        (a + (k : ℤ)) ∈ (store.filter qualifying).map (fun e => e.date)) ∧
      (∀ (a : ℤ) (n : ℕ),
        (∀ k : ℕ, k < n → (a + (k : ℤ)) ∈ (store.filter qualifying).map (fun e => e.date)) →
        n ≤ getLongestStreak store) ∧
      (∀ D : ℤ, getLongestStreak [⟨D, some "a", none, false, 0, 0⟩,
        ⟨D + 2, some "b", none, false, 0, 0⟩] = 1) := by
  have hDcase : ∀ D : ℤ, getLongestStreak [⟨D, some "a", none, false, 0, 0⟩,
      ⟨D + 2, some "b", none, false, 0, 0⟩] = 1 := by
    intro D
    have h1 : (([⟨D, some "a", none, false, 0, 0⟩,
        ⟨D + 2, some "b", none, false, 0, 0⟩] : List Entry).filter qualifying).map
          (fun e => e.date) = [D, D + 2] := by
      simp [qualifying]
    have hsq2 : sortedQualDates [⟨D, some "a", none, false, 0, 0⟩,
        ⟨D + 2, some "b", none, false, 0, 0⟩] = [D, D + 2] := by
      unfold sortedQualDates
      rw [h1]
      simp only [List.insertionSort, List.orderedInsert]
      rw [if_pos (show D ≤ D + 2 by omega)]
    simp only [getLongestStreak, hsq2]
    simp only [longestLoop]
    rw [if_neg (show ¬(D + 2 - D = 1) by omega)]
  intro store hnd
  have hperm : List.Perm (sortedQualDates store)
      ((store.filter qualifying).map (fun e => e.date)) :=
    List.perm_insertionSort _ _
  have hsorted_le : List.Sorted (· ≤ ·) (sortedQualDates store) :=
    List.sorted_insertionSort _ _
  have hnd2 : (sortedQualDates store).Nodup := hperm.nodup_iff.mpr hnd
  have hsorted : List.Sorted (· < ·) (sortedQualDates store) := by
    have hand := List.Pairwise.and hsorted_le hnd2
    exact hand.imp (fun h => lt_of_le_of_ne h.1 h.2)
  have hmemiff : ∀ x : ℤ, x ∈ sortedQualDates store ↔
      x ∈ (store.filter qualifying).map (fun e => e.date) := fun x => hperm.mem_iff
  cases hsq : sortedQualDates store with
  | nil =>
    have hdlnil : (store.filter qualifying).map (fun e => e.date) = [] := by
      rw [hsq] at hperm
      exact (hperm.symm).eq_nil
    simp only [getLongestStreak, hsq]
    refine ⟨by simp [hdlnil], ⟨0, fun k hk => absurd hk (by omega)⟩, ?_, hDcase⟩
    intro a n hr
    match n with
    | 0 => exact le_rfl
    | n + 1 =>
      have h0 := hr 0 (by omega)
      rw [hdlnil] at h0
      simp at h0
  | cons d0 rest0 =>
    simp only [getLongestStreak, hsq]
    have hsorted0 : List.Sorted (· < ·) (d0 :: rest0) := by rw [← hsq]; exact hsorted
    have hmin : ∀ x ∈ d0 :: rest0, d0 ≤ x := by
      intro x hx
      rcases List.mem_cons.mp hx with rfl | hx
      · exact le_rfl
      · exact le_of_lt ((List.pairwise_cons.mp hsorted0).1 x hx)
    have hres := longestLoop_spec rest0 [] d0 1 1
      (by simpa using hsorted0)
      (le_refl 1) (le_refl 1)
      (by
        intro k hk
        have hk0 : k = 0 := by omega
        subst hk0
        simp)
      (by
        rw [List.nil_append]
        intro hmem
        have := hmin _ hmem
        omega)
      (⟨d0, by
        intro k hk
        have hk0 : k = 0 := by omega
        subst hk0
        simp⟩)
      (by
        intro a n hr
        by_contra hgt
        push_neg at hgt
        have h0 := hr 0 (by omega)
        have h1 := hr 1 (by omega)
        rw [List.nil_append, List.mem_singleton] at h0 h1
        push_cast at h0 h1
        omega)
    rw [List.nil_append] at hres
    have hmem2 : ∀ x : ℤ, x ∈ d0 :: rest0 ↔
        x ∈ (store.filter qualifying).map (fun e => e.date) := by
      intro x
      rw [← hsq]
      exact hmemiff x
    refine ⟨?_, ?_, ?_, hDcase⟩
    · constructor
      · intro h0
        have hge := le_longestLoop rest0 d0 1 1
        omega
      · intro hdlnil
        exfalso
        have hd0 : d0 ∈ (store.filter qualifying).map (fun e => e.date) :=
          (hmem2 d0).mp (by simp)
        rw [hdlnil] at hd0
        simp at hd0
    · obtain ⟨a, ha⟩ := hres.1
      exact ⟨a, fun k hk => (hmem2 _).mp (ha k hk)⟩
    · intro a n hr
      exact hres.2 a n (fun k hk => (hmem2 _).mpr (hr k hk))

/-- Witness for C3 at a concrete store: two qualifying entries on days 0
and 2 have distinct dates and longest streak 1. -/
theorem getLongestStreak_correct_witness :
    ((([⟨0, some "a", none, false, 0, 0⟩,
        ⟨2, some "b", none, false, 0, 0⟩] : List Entry).filter qualifying).map
          (fun e => e.date)).Nodup ∧
      getLongestStreak [⟨(0 : ℤ), some "a", none, false, 0, 0⟩,
        ⟨(0 : ℤ) + 2, some "b", none, false, 0, 0⟩] = 1 := by
  have hnd : ((([⟨0, some "a", none, false, 0, 0⟩,
      ⟨2, some "b", none, false, 0, 0⟩] : List Entry).filter qualifying).map
        (fun e => e.date)).Nodup := by decide
  exact ⟨hnd, (getLongestStreak_correct [⟨0, some "a", none, false, 0, 0⟩,
    ⟨2, some "b", none, false, 0, 0⟩] hnd).2.2.2 0⟩
